import Mathlib

/-!
Shallow embedding of the separation core of the Prompt-And-Output-Separator
repository (src/app/app.py): text statistics (`count_text_stats`), the
LLM-splitter path with its content-integrity gate (`analyze_with_llm`), the
public separation entry point (`separate_prompt_output`, here `separate`),
and batch processing (`process_column`).

Texts are modelled as `List Char`.  Python's whitespace-driven primitives
(`str.split()`, `str.split(sep, 1)`, `str.strip()`) are modelled by
executable functions below.
-/

namespace PromptSeparator

/-- The whitespace predicate used by Python's `str.split()` / `str.strip()`,
restricted to the ASCII whitespace characters (space, tab, newline,
carriage return, vertical tab, form feed), which are the ones the texts in
this development can contain. -/
def isPySpace (c : Char) : Bool :=
  c = ' ' || c = '\t' || c = '\n' || c = '\r' || c = Char.ofNat 11 || c = Char.ofNat 12

/-- Python `text.strip()`: drop whitespace from both ends. -/
def strip (l : List Char) : List Char :=
  ((l.dropWhile isPySpace).reverse.dropWhile isPySpace).reverse

/-- Python `text.split('\n\n', 1)` in the found case: split at the
leftmost occurrence of two consecutive newline characters, returning the
part before and the part after; `none` when no occurrence exists
(Python then returns the one-element list `[text]`). -/
def splitOnBlank : List Char → Option (List Char × List Char)
  | [] => none
  | c :: rest =>
    if c = '\n' ∧ rest.head? = some '\n' then some ([], rest.tail)
    else
      match splitOnBlank rest with
      | some (a, b) => some (c :: a, b)
      | none => none

/-- Scanner for Python `text.split()` (no separator argument): the
accumulator holds the reversed current word; whitespace closes the current
word, non-whitespace extends it. -/
def pySplitAux : List Char → List Char → List (List Char)
  | [], acc => if acc = [] then [] else [acc.reverse]
  | c :: rest, acc =>
    if isPySpace c then
      if acc = [] then pySplitAux rest [] else acc.reverse :: pySplitAux rest []
    else pySplitAux rest (c :: acc)

/-- Python `text.split()`: the list of maximal whitespace-delimited
non-empty tokens. -/
def pySplit (l : List Char) : List (List Char) :=
  pySplitAux l []

/-- Python `len(text.split())`. -/
def wordCount (l : List Char) : Nat :=
  (pySplit l).length

/-- `count_text_stats` from src/app/app.py: `len(text.split())` words and
`len(text)` characters. -/
def count_text_stats (l : List Char) : Nat × Nat :=
  (wordCount l, l.length)

/-- The result triple of the separation engine. -/
structure SeparationResult where
  title : List Char
  prompt : List Char
  output : List Char
deriving DecidableEq, Repr

/-- The JSON object a successful splitter call parses into: each of the
three fields is a string or null/absent (`none`). -/
structure SplitterResponse where
  title : Option (List Char)
  prompt : Option (List Char)
  output : Option (List Char)
deriving DecidableEq, Repr

/-- Observable outcomes of one call to the external splitter service in
`analyze_with_llm`: a raised transport exception, a non-200 HTTP status,
a response body that fails to parse as JSON, or a parsed response. -/
inductive SplitterOutcome where
  | transportError
  | httpError (code : Nat)
  | parseError
  | success (resp : SplitterResponse)
deriving DecidableEq, Repr

/-- The fixed fallback title string. -/
def untitled : List Char := "Untitled Conversation".data

/-- The heuristic fallback of `separate_prompt_output` (src/app/app.py
lines 106-109): `parts = text.split('\n\n', 1)`; on a two-way split return
the stripped parts, otherwise the stripped whole text with empty output. -/
def heuristicFallback (text : List Char) : SeparationResult :=
  match splitOnBlank text with
  | some (a, b) => ⟨untitled, strip a, strip b⟩
  | none => ⟨untitled, strip text, []⟩

/-- The integrity gate `result_words < original_words * 0.9` of
src/app/app.py line 80.  The Python comparison is between the integer
`result_words` and the float `original_words * 0.9`; for word counts of
realistic size (far below 2^50) that float comparison coincides with the
exact rational comparison `10 * result_words < 9 * original_words`
modelled here. -/
def integrityRejected (resultWords originalWords : Nat) : Bool :=
  10 * resultWords < 9 * originalWords

/-- `analyze_with_llm` from src/app/app.py (lines 31-97), given the
outcome of the one outbound call.  Every failure outcome returns the
all-`none` triple (the Python `return None, None, None` branches).  A
parsed response is checked by the integrity gate, which counts the words
of the CONCATENATION `parsed.get("prompt", "") + parsed.get("output", "")`
(line 79); on rejection the function returns the heuristic split inline
(lines 82-85), otherwise the three `parsed.get` fields as they are. -/
def analyze_with_llm (text : List Char) :
    SplitterOutcome → Option (List Char) × Option (List Char) × Option (List Char)
  | .transportError => (none, none, none)
  | .httpError _ => (none, none, none)
  | .parseError => (none, none, none)
  | .success parsed =>
    if integrityRejected (wordCount ((parsed.prompt.getD []) ++ (parsed.output.getD [])))
        (wordCount text) then
      match splitOnBlank text with
      | some (a, b) => (some untitled, some (strip a), some (strip b))
      | none => (some untitled, some (strip text), some [])
    else (parsed.title, parsed.prompt, parsed.output)

/-- `separate_prompt_output` from src/app/app.py (lines 99-109).  The
splitter capability is `none` when no API key is configured; a configured
capability is a function from the text to the outcome of the one call. -/
def separate (text : List Char) (splitter : Option (List Char → SplitterOutcome)) :
    SeparationResult :=
  if text = [] then ⟨[], [], []⟩
  else
    match splitter with
    | none => heuristicFallback text
    | some call =>
      match analyze_with_llm text (call text) with
      | (some t, some p, some o) => ⟨t, p, o⟩
      | _ => heuristicFallback text

/-- Number of outbound splitter calls `separate` performs, read off the
control flow of src/app/app.py lines 99-103: none on empty input or with
no API key, exactly one otherwise. -/
def splitterCalls (text : List Char) (splitter : Option (List Char → SplitterOutcome)) : Nat :=
  if text = [] then 0
  else
    match splitter with
    | none => 0
    | some _ => 1

/-- `process_column` from src/app/app.py (lines 111-116): apply
`separate_prompt_output` to every element of the column, in order. -/
def process_column (column : List (List Char))
    (splitter : Option (List Char → SplitterOutcome)) : List SeparationResult :=
  column.map (fun item => separate item splitter)

/-- Word-count scanner: `wcAux inWord l` counts the maximal non-whitespace
runs of `l`, `inWord` recording whether the previous character belonged to
a run.  Proof-friendly reformulation of `pySplit`-counting. -/
def wcAux : Bool → List Char → Nat
  | _, [] => 0
  | inWord, c :: rest =>
    if isPySpace c then wcAux false rest
    else (if inWord then 0 else 1) + wcAux true rest

/-- A blank line (two consecutive newline characters) occurs somewhere in
the text. -/
def occursBlank (l : List Char) : Prop :=
  ∃ a b, l = a ++ '\n' :: '\n' :: b

/-- Specification-side count of maximal whitespace-delimited tokens: the
number of positions holding a non-whitespace character whose predecessor
(or the start of the string) is whitespace. -/
def tokenStarts (l : List Char) : Nat :=
  ((true :: l.map isPySpace).zip (l.map isPySpace)).countP (fun pr => pr.1 && !pr.2)

example : separate "A\n\nB\n\nC".data none =
    ⟨untitled, "A".data, "B\n\nC".data⟩ := by decide

example : count_text_stats "a b  c".data = (3, 6) := by decide

example : separate "".data none = ⟨[], [], []⟩ := by decide

/-! ## Word-count lemmas -/

lemma pySplitAux_length : ∀ (l : List Char) (acc : List Char),
    (pySplitAux l acc).length = if acc = [] then wcAux false l else 1 + wcAux true l := by
  intro l
  induction l with
  | nil =>
    intro acc
    by_cases h : acc = [] <;> simp [pySplitAux, wcAux, h]
  | cons c rest ih =>
    intro acc
    by_cases hs : isPySpace c
    · by_cases h : acc = [] <;> simp [pySplitAux, wcAux, h, hs, ih, Nat.add_comm]
    · by_cases h : acc = [] <;> simp [pySplitAux, wcAux, h, hs, ih, Nat.add_comm]

lemma wordCount_eq_wcAux (l : List Char) : wordCount l = wcAux false l := by
  simp [wordCount, pySplit, pySplitAux_length]

lemma wcAux_append_space {c : Char} (hc : isPySpace c = true) :
    ∀ (a : List Char) (b : List Char) (s : Bool),
      wcAux s (a ++ c :: b) = wcAux s a + wcAux false b := by
  intro a
  induction a with
  | nil => intro b s; simp [wcAux, hc]
  | cons d a' ih =>
    intro b s
    by_cases hd : isPySpace d <;> simp [wcAux, hd, ih, Nat.add_assoc]

lemma wcAux_eq_zero {ws : List Char} (h : ∀ c ∈ ws, isPySpace c = true) (s : Bool) :
    wcAux s ws = 0 := by
  induction ws generalizing s with
  | nil => simp [wcAux]
  | cons c r ih =>
    have hc := h c (List.mem_cons_self c r)
    simp only [wcAux, hc, if_true]
    exact ih (fun d hd => h d (List.mem_cons_of_mem c hd)) false

lemma wcAux_append_spaces {ws : List Char} (h : ∀ c ∈ ws, isPySpace c = true) :
    ∀ (a : List Char) (s : Bool), wcAux s (a ++ ws) = wcAux s a := by
  intro a
  induction a with
  | nil => intro s; simpa [wcAux] using wcAux_eq_zero h s
  | cons d a' ih =>
    intro s
    by_cases hd : isPySpace d <;> simp [wcAux, hd, ih]

lemma wcAux_spaces_append {ws : List Char} (h : ∀ c ∈ ws, isPySpace c = true)
    (b : List Char) : wcAux false (ws ++ b) = wcAux false b := by
  induction ws with
  | nil => rfl
  | cons c r ih =>
    have hc := h c (List.mem_cons_self c r)
    simp only [List.cons_append, wcAux, hc, if_true]
    exact ih (fun d hd => h d (List.mem_cons_of_mem c hd))

/-! ## Strip lemmas -/

lemma strip_decomp (l : List Char) :
    ∃ ws1 ws2, (∀ c ∈ ws1, isPySpace c = true) ∧ (∀ c ∈ ws2, isPySpace c = true) ∧
      l = ws1 ++ strip l ++ ws2 := by
  refine ⟨l.takeWhile isPySpace, ((l.dropWhile isPySpace).reverse.takeWhile isPySpace).reverse,
    fun c hc => List.mem_takeWhile_imp hc,
    fun c hc => List.mem_takeWhile_imp (List.mem_reverse.mp hc), ?_⟩
  conv_lhs => rw [← List.takeWhile_append_dropWhile (p := isPySpace) (l := l)]
  rw [List.append_assoc]
  congr 1
  conv_lhs => rw [← List.reverse_reverse (l.dropWhile isPySpace),
    ← List.takeWhile_append_dropWhile (p := isPySpace) (l := (l.dropWhile isPySpace).reverse)]
  rw [List.reverse_append]
  rfl

lemma wcAux_strip (l : List Char) : wcAux false (strip l) = wcAux false l := by
  obtain ⟨ws1, ws2, h1, h2, hdecomp⟩ := strip_decomp l
  conv_rhs => rw [hdecomp]
  rw [List.append_assoc, wcAux_spaces_append h1, wcAux_append_spaces h2]

lemma wordCount_strip (l : List Char) : wordCount (strip l) = wordCount l := by
  rw [wordCount_eq_wcAux, wordCount_eq_wcAux, wcAux_strip]

lemma head_dropWhile_not {p : Char → Bool} :
    ∀ {l : List Char} {c : Char}, (l.dropWhile p).head? = some c → p c = false := by
  intro l
  induction l with
  | nil => intro c h; simp [List.dropWhile] at h
  | cons d r ih =>
    intro c h
    by_cases hd : p d
    · rw [List.dropWhile_cons, if_pos hd] at h
      exact ih h
    · rw [List.dropWhile_cons, if_neg hd] at h
      simp only [List.head?_cons, Option.some.injEq] at h
      subst h
      simpa using hd

lemma strip_getLast_not {l : List Char} {c : Char} (h : (strip l).getLast? = some c) :
    isPySpace c = false := by
  unfold strip at h
  rw [List.getLast?_reverse] at h
  exact head_dropWhile_not h

lemma strip_head_not {l : List Char} {c : Char} (h : (strip l).head? = some c) :
    isPySpace c = false := by
  unfold strip at h
  rw [List.head?_reverse] at h
  have hz : (l.dropWhile isPySpace).reverse.dropWhile isPySpace ≠ [] := by
    intro he
    rw [he] at h
    simp at h
  have hsplit : (l.dropWhile isPySpace).reverse.takeWhile isPySpace ++
      (l.dropWhile isPySpace).reverse.dropWhile isPySpace = (l.dropWhile isPySpace).reverse :=
    List.takeWhile_append_dropWhile isPySpace (l.dropWhile isPySpace).reverse
  have hlast : (l.dropWhile isPySpace).reverse.getLast? = some c := by
    rw [← hsplit, List.getLast?_append_of_ne_nil _ hz]
    exact h
  rw [List.getLast?_reverse] at hlast
  exact head_dropWhile_not hlast

lemma dropWhile_eq_self_of_head {p : Char → Bool} {l : List Char}
    (h : ∀ c, l.head? = some c → p c = false) : l.dropWhile p = l := by
  cases l with
  | nil => rfl
  | cons d r => rw [List.dropWhile_cons, if_neg (by simp [h d rfl])]

lemma strip_strip (l : List Char) : strip (strip l) = strip l := by
  have h1 : (strip l).dropWhile isPySpace = strip l :=
    dropWhile_eq_self_of_head (fun c hc => strip_head_not hc)
  have h2 : (strip l).reverse.dropWhile isPySpace = (strip l).reverse := by
    apply dropWhile_eq_self_of_head
    intro c hc
    rw [List.head?_reverse] at hc
    exact strip_getLast_not hc
  have hdef : strip (strip l) =
      (((strip l).dropWhile isPySpace).reverse.dropWhile isPySpace).reverse := rfl
  rw [hdef, h1, h2, List.reverse_reverse]

lemma strip_nil : strip [] = [] := rfl

/-! ## Blank-line split lemmas -/

lemma splitOnBlank_eq_some : ∀ {l a b : List Char}, splitOnBlank l = some (a, b) →
    l = a ++ '\n' :: '\n' :: b ∧ splitOnBlank (a ++ ['\n']) = none := by
  intro l
  induction l with
  | nil => intro a b h; simp [splitOnBlank] at h
  | cons c rest ih =>
    intro a b h
    by_cases hc : c = '\n' ∧ rest.head? = some '\n'
    · rw [splitOnBlank, if_pos hc] at h
      obtain ⟨hc1, hc2⟩ := hc
      cases rest with
      | nil => simp at hc2
      | cons d t =>
        simp only [List.head?_cons, Option.some.injEq] at hc2
        simp only [List.tail_cons, Option.some.injEq, Prod.mk.injEq] at h
        obtain ⟨ha, hb⟩ := h
        subst ha hb hc1 hc2
        exact ⟨rfl, by decide⟩
    · rw [splitOnBlank, if_neg hc] at h
      cases hrest : splitOnBlank rest with
      | none => rw [hrest] at h; simp at h
      | some pr =>
        obtain ⟨a', b'⟩ := pr
        rw [hrest] at h
        simp only [Option.some.injEq, Prod.mk.injEq] at h
        obtain ⟨ha, hb⟩ := h
        obtain ⟨hdec, hnone⟩ := ih hrest
        subst ha hb
        constructor
        · rw [hdec]; rfl
        · have hc' : ¬ (c = '\n' ∧ (a' ++ ['\n']).head? = some '\n') := by
            intro ⟨hcn, hh⟩
            apply hc
            refine ⟨hcn, ?_⟩
            rw [hdec]
            cases a' with
            | nil => simp
            | cons e a'' => simpa using hh
          rw [List.cons_append, splitOnBlank, if_neg hc', hnone]

lemma splitOnBlank_append_of_some : ∀ {x a b : List Char} (y : List Char),
    splitOnBlank x = some (a, b) → splitOnBlank (x ++ y) = some (a, b ++ y) := by
  intro x
  induction x with
  | nil => intro a b y h; simp [splitOnBlank] at h
  | cons c rest ih =>
    intro a b y h
    by_cases hc : c = '\n' ∧ rest.head? = some '\n'
    · rw [splitOnBlank, if_pos hc] at h
      obtain ⟨hc1, hc2⟩ := hc
      cases rest with
      | nil => simp at hc2
      | cons d t =>
        simp only [List.head?_cons, Option.some.injEq] at hc2
        simp only [List.tail_cons, Option.some.injEq, Prod.mk.injEq] at h
        obtain ⟨ha, hb⟩ := h
        subst ha hb hc1 hc2
        rw [List.cons_append, splitOnBlank, if_pos (by simp)]
        simp
    · rw [splitOnBlank, if_neg hc] at h
      cases hrest : splitOnBlank rest with
      | none => rw [hrest] at h; simp at h
      | some pr =>
        obtain ⟨a', b'⟩ := pr
        rw [hrest] at h
        simp only [Option.some.injEq, Prod.mk.injEq] at h
        obtain ⟨ha, hb⟩ := h
        subst ha hb
        have hrest' := ih y hrest
        have hc' : ¬ (c = '\n' ∧ (rest ++ y).head? = some '\n') := by
          intro ⟨hcn, hh⟩
          apply hc
          refine ⟨hcn, ?_⟩
          cases rest with
          | nil => simp [splitOnBlank] at hrest
          | cons e t => simpa using hh
        rw [List.cons_append, splitOnBlank, if_neg hc', hrest']

lemma splitOnBlank_append_isSome : ∀ (x : List Char) {y : List Char},
    (splitOnBlank y).isSome → (splitOnBlank (x ++ y)).isSome := by
  intro x
  induction x with
  | nil => intro y h; simpa using h
  | cons c rest ih =>
    intro y h
    rw [List.cons_append, splitOnBlank]
    by_cases hc : c = '\n' ∧ (rest ++ y).head? = some '\n'
    · rw [if_pos hc]; rfl
    · rw [if_neg hc]
      cases hr : splitOnBlank (rest ++ y) with
      | none =>
        have := ih h
        rw [hr] at this
        simp at this
      | some pr => obtain ⟨a, b⟩ := pr; rfl

lemma splitOnBlank_none_iff {l : List Char} : splitOnBlank l = none ↔ ¬ occursBlank l := by
  constructor
  · rintro h ⟨a, b, rfl⟩
    have hy : (splitOnBlank ('\n' :: '\n' :: b)).isSome := by
      rw [splitOnBlank, if_pos (by simp)]; rfl
    have := splitOnBlank_append_isSome a hy
    rw [h] at this
    simp at this
  · intro h
    cases hs : splitOnBlank l with
    | none => rfl
    | some pr =>
      obtain ⟨a, b⟩ := pr
      exact absurd ⟨a, b, (splitOnBlank_eq_some hs).1⟩ h

lemma splitOnBlank_none_mid {x m y : List Char}
    (h : splitOnBlank (x ++ m ++ y) = none) : splitOnBlank m = none := by
  cases hs : splitOnBlank m with
  | none => rfl
  | some pr =>
    obtain ⟨a, b⟩ := pr
    have h1 := splitOnBlank_append_of_some y hs
    have h2 := splitOnBlank_append_isSome x (by rw [h1]; rfl)
    rw [← List.append_assoc, h] at h2
    simp at h2

lemma splitOnBlank_append_blank : ∀ {p : List Char} (b : List Char),
    splitOnBlank p = none → p.getLast? ≠ some '\n' →
    splitOnBlank (p ++ '\n' :: '\n' :: b) = some (p, b) := by
  intro p
  induction p with
  | nil =>
    intro b _ _
    rw [List.nil_append, splitOnBlank, if_pos (by simp)]
    simp
  | cons c p' ih =>
    intro b hnone hlast
    by_cases hc : c = '\n' ∧ (p' ++ '\n' :: '\n' :: b).head? = some '\n'
    · exfalso
      obtain ⟨hc1, hc2⟩ := hc
      cases p' with
      | nil =>
        apply hlast
        rw [hc1]
        rfl
      | cons d p'' =>
        simp only [List.cons_append, List.head?_cons, Option.some.injEq] at hc2
        rw [splitOnBlank, if_pos (by simp [hc1, hc2])] at hnone
        simp at hnone
    · have hnone' : splitOnBlank p' = none := by
        by_cases hc0 : c = '\n' ∧ p'.head? = some '\n'
        · exfalso
          apply hc
          obtain ⟨hc1, hc2⟩ := hc0
          refine ⟨hc1, ?_⟩
          cases p' with
          | nil => simp at hc2
          | cons d p'' => simpa using hc2
        · rw [splitOnBlank, if_neg hc0] at hnone
          cases hr : splitOnBlank p' with
          | none => rfl
          | some pr =>
            obtain ⟨a', b'⟩ := pr
            rw [hr] at hnone
            simp at hnone
      have hlast' : p'.getLast? ≠ some '\n' := by
        cases p' with
        | nil => simp
        | cons d p'' =>
          intro hl
          apply hlast
          rw [List.getLast?_cons_cons]
          exact hl
      have hrec := ih b hnone' hlast'
      rw [List.cons_append, splitOnBlank, if_neg hc, hrec]

/-! ## Engine unfolding lemmas -/

lemma separate_eq_of_ne {text : List Char} (call : List Char → SplitterOutcome)
    (h : text ≠ []) :
    separate text (some call) =
      match analyze_with_llm text (call text) with
      | (some t, some p, some o) => (⟨t, p, o⟩ : SeparationResult)
      | _ => heuristicFallback text := by
  unfold separate
  rw [if_neg h]

lemma separate_none_of_ne {text : List Char} (h : text ≠ []) :
    separate text none = heuristicFallback text := by
  unfold separate
  rw [if_neg h]

lemma analyze_reject {text : List Char} {resp : SplitterResponse}
    (hgate : integrityRejected (wordCount (resp.prompt.getD [] ++ resp.output.getD []))
      (wordCount text) = true) :
    (match analyze_with_llm text (.success resp) with
      | (some t, some p, some o) => (⟨t, p, o⟩ : SeparationResult)
      | _ => heuristicFallback text) = heuristicFallback text := by
  simp only [analyze_with_llm]
  rw [if_pos hgate]
  cases hsb : splitOnBlank text with
  | some pr =>
    obtain ⟨a, b⟩ := pr
    unfold heuristicFallback
    rw [hsb]
  | none =>
    unfold heuristicFallback
    rw [hsb]

lemma analyze_accept {text : List Char} {resp : SplitterResponse}
    (hgate : integrityRejected (wordCount (resp.prompt.getD [] ++ resp.output.getD []))
      (wordCount text) = false) :
    analyze_with_llm text (.success resp) = (resp.title, resp.prompt, resp.output) := by
  simp only [analyze_with_llm]
  rw [if_neg (by simp [hgate])]

lemma separate_success_reject {text : List Char} {call : List Char → SplitterOutcome}
    {resp : SplitterResponse} (h : text ≠ []) (hcall : call text = .success resp)
    (hgate : integrityRejected (wordCount (resp.prompt.getD [] ++ resp.output.getD []))
      (wordCount text) = true) :
    separate text (some call) = heuristicFallback text := by
  rw [separate_eq_of_ne call h, hcall]
  exact analyze_reject hgate

/-! ## Tokenizer lemmas -/

lemma zip_countP_eq_wcAux : ∀ (l : List Char) (b : Bool),
    ((b :: l.map isPySpace).zip (l.map isPySpace)).countP (fun pr => pr.1 && !pr.2) =
      wcAux (!b) l := by
  intro l
  induction l with
  | nil => intro b; simp [wcAux]
  | cons c rest ih =>
    intro b
    by_cases hc : isPySpace c
    · simp [wcAux, hc, List.countP_cons, ih, Bool.not_eq_true]
    · simp only [List.map_cons, List.zip_cons_cons, List.countP_cons, ih]
      simp [wcAux, hc]
      cases b <;> simp [Nat.add_comm]

lemma wordCount_eq_tokenStarts (l : List Char) : wordCount l = tokenStarts l := by
  rw [wordCount_eq_wcAux, tokenStarts]
  have := zip_countP_eq_wcAux l true
  simpa using this.symm

lemma pySplitAux_tokens : ∀ (l acc : List Char), (∀ c ∈ acc, isPySpace c = false) →
    ∀ w ∈ pySplitAux l acc, w ≠ [] ∧ ∀ c ∈ w, isPySpace c = false := by
  intro l
  induction l with
  | nil =>
    intro acc hacc w hw
    by_cases h : acc = []
    · simp [pySplitAux, h] at hw
    · simp only [pySplitAux, if_neg h, List.mem_singleton] at hw
      subst hw
      exact ⟨by simpa using h, fun c hc => hacc c (List.mem_reverse.mp hc)⟩
  | cons c rest ih =>
    intro acc hacc w hw
    by_cases hs : isPySpace c
    · by_cases h : acc = []
      · simp only [pySplitAux, if_pos hs, if_pos h] at hw
        exact ih [] (by simp) w hw
      · simp only [pySplitAux, if_pos hs, if_neg h, List.mem_cons] at hw
        rcases hw with hw | hw
        · subst hw
          exact ⟨by simpa using h, fun d hd => hacc d (List.mem_reverse.mp hd)⟩
        · exact ih [] (by simp) w hw
    · simp only [pySplitAux, if_neg hs] at hw
      refine ih (c :: acc) ?_ w hw
      intro d hd
      rcases List.mem_cons.mp hd with rfl | hd
      · simpa using hs
      · exact hacc d hd

/-! ## Claims -/

/-- C1: For every non-empty input text with no splitter configured,
`separate` returns the heuristic fallback: when the text contains a blank
line (two consecutive newline characters) it is split on the FIRST such
occurrence only, returning the title "Untitled Conversation" with the two
trimmed parts; when no blank-line boundary exists it returns the trimmed
whole text as the prompt and an empty output.  In particular
"A\n\nB\n\nC" gives prompt "A" and output "B\n\nC". -/
theorem C1_heuristic_fallback :
    (∀ text : List Char, text ≠ [] →
      ((∃ a b, text = a ++ '\n' :: '\n' :: b ∧ ¬ occursBlank (a ++ ['\n']) ∧
          separate text none = ⟨untitled, strip a, strip b⟩) ∨
        (¬ occursBlank text ∧ separate text none = ⟨untitled, strip text, []⟩))) ∧
    separate "A\n\nB\n\nC".data none = ⟨untitled, "A".data, "B\n\nC".data⟩ ∧
    separate "hello world".data none = ⟨untitled, "hello world".data, []⟩ := by
  refine ⟨?_, by decide, by decide⟩
  intro text h
  cases hsb : splitOnBlank text with
  | some pr =>
    obtain ⟨a, b⟩ := pr
    obtain ⟨hdec, hnone⟩ := splitOnBlank_eq_some hsb
    left
    refine ⟨a, b, hdec, splitOnBlank_none_iff.mp hnone, ?_⟩
    rw [separate_none_of_ne h]
    unfold heuristicFallback
    rw [hsb]
  | none =>
    right
    refine ⟨splitOnBlank_none_iff.mp hsb, ?_⟩
    rw [separate_none_of_ne h]
    unfold heuristicFallback
    rw [hsb]

theorem C1_heuristic_fallback_witness :
    ("hi".data ≠ ([] : List Char)) ∧
    ((∃ a b, "hi".data = a ++ '\n' :: '\n' :: b ∧ ¬ occursBlank (a ++ ['\n']) ∧
        separate "hi".data none = ⟨untitled, strip a, strip b⟩) ∨
      (¬ occursBlank "hi".data ∧ separate "hi".data none = ⟨untitled, strip "hi".data, []⟩)) :=
  ⟨by decide, C1_heuristic_fallback.1 "hi".data (by decide)⟩

/-- C3: For the empty input string, `separate` returns the all-empty
triple immediately, for every splitter configuration, and performs no
outbound splitter call. -/
theorem C3_empty_input :
    ∀ sp : Option (List Char → SplitterOutcome),
      separate [] sp = ⟨[], [], []⟩ ∧ splitterCalls [] sp = 0 := by
  intro sp
  exact ⟨by simp [separate], by simp [splitterCalls]⟩

/-- C6: For every input text and splitter behaviour, the result of
`separate` is a record with all three string fields present and defined
(the embedding's `SeparationResult` type has total string fields and
`separate` is a total function into it, so no field can be absent or
null). -/
theorem C6_fields_always_defined :
    ∀ (text : List Char) (sp : Option (List Char → SplitterOutcome)),
      ∃ t p o : List Char, separate text sp = ⟨t, p, o⟩ :=
  fun text sp => ⟨(separate text sp).title, (separate text sp).prompt,
    (separate text sp).output, rfl⟩

/-- C8: `process_column` returns one result per input, in the same order,
element i being exactly `separate` of input i (so elements are processed
independently), and the concrete batch from the spec evaluates as
stated. -/
theorem C8_process_column_pointwise :
    (∀ (texts : List (List Char)) (sp : Option (List Char → SplitterOutcome)),
      (process_column texts sp).length = texts.length ∧
      ∀ i : Nat, (process_column texts sp)[i]? = (texts[i]?).map (fun t => separate t sp)) ∧
    process_column ["".data, "A\n\nB".data] none =
      [⟨[], [], []⟩, ⟨untitled, "A".data, "B".data⟩] := by
  refine ⟨fun texts sp => ⟨by simp [process_column], fun i => ?_⟩, by decide⟩
  simp [process_column]

/-- C9: `count_text_stats` returns the number of maximal
whitespace-delimited non-empty tokens (counted as `tokenStarts`: the
number of non-whitespace positions preceded by whitespace or by the start
of the string) together with the total character count including
whitespace; every token of `pySplit` is non-empty and whitespace-free;
and `count_text_stats "a b  c"` is `(3, 6)`.  Purity and totality hold by
construction of the Lean function. -/
theorem C9_stats :
    (∀ l : List Char, count_text_stats l = (tokenStarts l, l.length)) ∧
    (∀ l w, w ∈ pySplit l → w ≠ [] ∧ ∀ c ∈ w, isPySpace c = false) ∧
    count_text_stats "a b  c".data = (3, 6) := by
  refine ⟨fun l => ?_, fun l w hw => pySplitAux_tokens l [] (by simp) w hw, by decide⟩
  simp [count_text_stats, wordCount_eq_tokenStarts]

theorem C9_stats_witness :
    ("a".data ∈ pySplit "a b  c".data) ∧
    ("a".data ≠ [] ∧ ∀ c ∈ "a".data, isPySpace c = false) :=
  ⟨by decide, C9_stats.2.1 "a b  c".data "a".data (by decide)⟩

/-- C2 counterexample: the claim computes `recovered_words` as
`wordcount(prompt) + wordcount(output)`, but the code (line 79 of
src/app/app.py) counts the words of the direct concatenation
`prompt + output`, in which the last word of the prompt merges with the
first word of the output.  With `text = "x y"` (2 words) and a splitter
response with prompt "a" and output "b", the claim's recovered count is
2 ≥ 0.9·2, so the claim predicts acceptance and result ("T", "a", "b");
the code counts "ab" as 1 word, rejects, and returns the heuristic
fallback instead. -/
theorem C2_claim_counterexample :
    ¬ (10 * (wordCount "a".data + wordCount "b".data) < 9 * wordCount "x y".data) ∧
    separate "x y".data (some (fun _ =>
        SplitterOutcome.success ⟨some "T".data, some "a".data, some "b".data⟩)) =
      ⟨untitled, "x y".data, []⟩ ∧
    separate "x y".data (some (fun _ =>
        SplitterOutcome.success ⟨some "T".data, some "a".data, some "b".data⟩)) ≠
      ⟨"T".data, "a".data, "b".data⟩ := by
  exact ⟨by decide, by decide, by decide⟩

/-- C2 amended: for a splitter response with all three fields present,
the engine computes `recovered_words` as the word count of the direct
concatenation `prompt ++ output` (so a word ending the prompt and a word
beginning the output merge into one), `original_words` as
`wordcount(text)`, and it discards the response — producing the heuristic
fallback result — if and only if `recovered_words < 0.9 * original_words`.
The comparison is strict, so a concatenated count of exactly 90% of the
original is accepted. -/
theorem C2_integrity_gate :
    ∀ (text : List Char) (call : List Char → SplitterOutcome) (t p o : List Char),
      text ≠ [] → call text = SplitterOutcome.success ⟨some t, some p, some o⟩ →
      (if 10 * wordCount (p ++ o) < 9 * wordCount text
        then separate text (some call) = heuristicFallback text
        else separate text (some call) = ⟨t, p, o⟩) := by
  intro text call t p o htext hcall
  by_cases hlt : 10 * wordCount (p ++ o) < 9 * wordCount text
  · rw [if_pos hlt]
    refine separate_success_reject htext hcall ?_
    simpa [integrityRejected] using hlt
  · rw [if_neg hlt]
    rw [separate_eq_of_ne call htext, hcall,
      analyze_accept (by simpa [integrityRejected] using hlt)]

theorem C2_integrity_gate_witness :
    ("a b c d e f g h i j".data ≠ ([] : List Char)) ∧
    (if 10 * wordCount ("a b c d e ".data ++ "f g h i".data) <
        9 * wordCount "a b c d e f g h i j".data
      then separate "a b c d e f g h i j".data (some (fun _ =>
          SplitterOutcome.success
            ⟨some "T".data, some "a b c d e ".data, some "f g h i".data⟩)) =
        heuristicFallback "a b c d e f g h i j".data
      else separate "a b c d e f g h i j".data (some (fun _ =>
          SplitterOutcome.success
            ⟨some "T".data, some "a b c d e ".data, some "f g h i".data⟩)) =
        ⟨"T".data, "a b c d e ".data, "f g h i".data⟩) :=
  ⟨by decide, C2_integrity_gate "a b c d e f g h i j".data
    (fun _ => SplitterOutcome.success
      ⟨some "T".data, some "a b c d e ".data, some "f g h i".data⟩)
    "T".data "a b c d e ".data "f g h i".data (by decide) rfl⟩

/-- C4: a splitter response in which any of the three fields is
null/absent is treated as invalid: `separate` returns the heuristic
fallback result, and no null field ever reaches the returned
`SeparationResult`. -/
theorem C4_null_field_fallback :
    ∀ (text : List Char) (call : List Char → SplitterOutcome) (resp : SplitterResponse),
      text ≠ [] → call text = SplitterOutcome.success resp →
      (resp.title = none ∨ resp.prompt = none ∨ resp.output = none) →
      separate text (some call) = heuristicFallback text := by
  intro text call resp htext hcall hnull
  cases hgate : integrityRejected (wordCount (resp.prompt.getD [] ++ resp.output.getD []))
      (wordCount text) with
  | true => exact separate_success_reject htext hcall hgate
  | false =>
    rw [separate_eq_of_ne call htext, hcall, analyze_accept hgate]
    obtain ⟨ti, pr, ou⟩ := resp
    rcases hnull with hn | hn | hn
    · simp only at hn
      subst hn
      cases pr <;> cases ou <;> rfl
    · simp only at hn
      subst hn
      cases ti <;> cases ou <;> rfl
    · simp only at hn
      subst hn
      cases ti <;> cases pr <;> rfl

theorem C4_null_field_fallback_witness :
    ("A\n\nB".data ≠ ([] : List Char)) ∧
    ((⟨some "T".data, some "A\n\nB".data, none⟩ : SplitterResponse).output = none) ∧
    separate "A\n\nB".data (some (fun _ =>
        SplitterOutcome.success ⟨some "T".data, some "A\n\nB".data, none⟩)) =
      heuristicFallback "A\n\nB".data :=
  ⟨by decide, rfl,
    C4_null_field_fallback "A\n\nB".data
      (fun _ => SplitterOutcome.success ⟨some "T".data, some "A\n\nB".data, none⟩)
      ⟨some "T".data, some "A\n\nB".data, none⟩ (by decide) rfl (Or.inr (Or.inr rfl))⟩

/-- C5: `separate` is a total function (the embedding returns a value for
every input, so no error propagates), and for every splitter behaviour
the result either equals the no-splitter result (empty-input triple or
heuristic fallback — covering transport failures, non-200 statuses,
unparsable bodies, malformed shapes and integrity-gate rejections) or is
the accepted, gate-passing splitter response. -/
theorem C5_no_propagating_failure :
    ∀ (text : List Char) (call : List Char → SplitterOutcome),
      separate text (some call) = separate text none ∨
      ∃ t p o, call text = SplitterOutcome.success ⟨some t, some p, some o⟩ ∧
        ¬ (10 * wordCount (p ++ o) < 9 * wordCount text) ∧
        separate text (some call) = ⟨t, p, o⟩ := by
  intro text call
  by_cases htext : text = []
  · left
    subst htext
    simp [separate]
  · cases hcall : call text with
    | transportError =>
      left
      rw [separate_eq_of_ne call htext, hcall, separate_none_of_ne htext]
      simp [analyze_with_llm]
    | httpError code =>
      left
      rw [separate_eq_of_ne call htext, hcall, separate_none_of_ne htext]
      simp [analyze_with_llm]
    | parseError =>
      left
      rw [separate_eq_of_ne call htext, hcall, separate_none_of_ne htext]
      simp [analyze_with_llm]
    | success resp =>
      obtain ⟨ti, pr, ou⟩ := resp
      cases hgate : integrityRejected (wordCount (pr.getD [] ++ ou.getD []))
          (wordCount text) with
      | true =>
        left
        rw [separate_success_reject htext hcall hgate, separate_none_of_ne htext]
      | false =>
        cases ti with
        | none =>
          left
          rw [separate_eq_of_ne call htext, hcall, analyze_accept hgate,
            separate_none_of_ne htext]
        | some t =>
          cases pr with
          | none =>
            left
            rw [separate_eq_of_ne call htext, hcall, analyze_accept hgate,
              separate_none_of_ne htext]
          | some p =>
            cases ou with
            | none =>
              left
              rw [separate_eq_of_ne call htext, hcall, analyze_accept hgate,
                separate_none_of_ne htext]
            | some o =>
              right
              refine ⟨t, p, o, rfl, ?_, ?_⟩
              · simpa [integrityRejected] using hgate
              · rw [separate_eq_of_ne call htext, hcall, analyze_accept hgate]

/-- C7: the heuristic fallback is idempotent: whenever `separate` with no
splitter maps a text to prompt `p` and output `o`, running it again on
the rejoined string `p ++ "\n\n" ++ o` yields the same prompt `p` and
output `o`. -/
theorem C7_fallback_idempotent :
    ∀ (text t p o : List Char), separate text none = ⟨t, p, o⟩ →
      (separate (p ++ '\n' :: '\n' :: o) none).prompt = p ∧
      (separate (p ++ '\n' :: '\n' :: o) none).output = o := by
  intro text t p o hsep
  by_cases h : text = []
  · subst h
    have h0 : separate ([] : List Char) none = (⟨[], [], []⟩ : SeparationResult) := by decide
    rw [h0] at hsep
    injection hsep with h1 h2 h3
    subst h2
    subst h3
    exact ⟨by decide, by decide⟩
  · rw [separate_none_of_ne h] at hsep
    unfold heuristicFallback at hsep
    cases hsb : splitOnBlank text with
    | some pr =>
      obtain ⟨a, b⟩ := pr
      rw [hsb] at hsep
      simp only [SeparationResult.mk.injEq] at hsep
      obtain ⟨-, hp, ho⟩ := hsep
      subst hp ho
      obtain ⟨hdec, hnone⟩ := splitOnBlank_eq_some hsb
      have hsa : splitOnBlank (strip a) = none := by
        obtain ⟨ws1, ws2, -, -, hd⟩ := strip_decomp a
        apply splitOnBlank_none_mid (x := ws1) (y := ws2 ++ ['\n'])
        have hshape : a ++ ['\n'] = ws1 ++ strip a ++ (ws2 ++ ['\n']) := by
          conv_lhs => rw [hd]
          simp [List.append_assoc]
        rw [← hshape]
        exact hnone
      have hlast : (strip a).getLast? ≠ some '\n' := fun hl =>
        absurd (strip_getLast_not hl) (by decide)
      have hkey := splitOnBlank_append_blank (strip b) hsa hlast
      have hne : strip a ++ '\n' :: '\n' :: strip b ≠ [] := by
        cases strip a <;> simp
      rw [separate_none_of_ne hne]
      unfold heuristicFallback
      rw [hkey]
      exact ⟨strip_strip a, strip_strip b⟩
    | none =>
      rw [hsb] at hsep
      simp only [SeparationResult.mk.injEq] at hsep
      obtain ⟨-, hp, ho⟩ := hsep
      subst hp ho
      have hst : splitOnBlank (strip text) = none := by
        obtain ⟨ws1, ws2, -, -, hd⟩ := strip_decomp text
        apply splitOnBlank_none_mid (x := ws1) (y := ws2)
        rw [← hd]
        exact hsb
      have hlast : (strip text).getLast? ≠ some '\n' := fun hl =>
        absurd (strip_getLast_not hl) (by decide)
      have hkey := splitOnBlank_append_blank [] hst hlast
      have hne : strip text ++ '\n' :: '\n' :: ([] : List Char) ≠ [] := by
        cases strip text <;> simp
      rw [separate_none_of_ne hne]
      unfold heuristicFallback
      rw [hkey]
      exact ⟨strip_strip text, rfl⟩

theorem C7_fallback_idempotent_witness :
    (separate "A\n\nB".data none = ⟨untitled, "A".data, "B".data⟩) ∧
    ((separate ("A".data ++ '\n' :: '\n' :: "B".data) none).prompt = "A".data ∧
      (separate ("A".data ++ '\n' :: '\n' :: "B".data) none).output = "B".data) :=
  ⟨by decide,
    C7_fallback_idempotent "A\n\nB".data untitled "A".data "B".data (by decide)⟩

/-- C10: the heuristic fallback loses no words: for every non-empty text
processed with no splitter, the word counts of the returned prompt and
output sum exactly to the word count of the input (splitting at a blank
line and stripping only remove whitespace), so the fallback always
retains 100% of the words and in particular satisfies the 90% gate. -/
theorem C10_fallback_preserves_words :
    ∀ (text t p o : List Char), text ≠ [] → separate text none = ⟨t, p, o⟩ →
      wordCount p + wordCount o = wordCount text ∧
      ¬ (10 * (wordCount p + wordCount o) < 9 * wordCount text) := by
  intro text t p o h hsep
  rw [separate_none_of_ne h] at hsep
  unfold heuristicFallback at hsep
  have key : wordCount p + wordCount o = wordCount text := by
    cases hsb : splitOnBlank text with
    | some pr =>
      obtain ⟨a, b⟩ := pr
      rw [hsb] at hsep
      simp only [SeparationResult.mk.injEq] at hsep
      obtain ⟨-, hp, ho⟩ := hsep
      subst hp ho
      obtain ⟨hdec, -⟩ := splitOnBlank_eq_some hsb
      subst hdec
      rw [wordCount_strip, wordCount_strip, wordCount_eq_wcAux a, wordCount_eq_wcAux b,
        wordCount_eq_wcAux (a ++ '\n' :: '\n' :: b),
        wcAux_append_space (by decide) a ('\n' :: b) false]
      have hnl : wcAux false ('\n' :: b) = wcAux false b := by
        simp [wcAux, show isPySpace '\n' = true by decide]
      rw [hnl]
    | none =>
      rw [hsb] at hsep
      simp only [SeparationResult.mk.injEq] at hsep
      obtain ⟨-, hp, ho⟩ := hsep
      subst hp ho
      rw [wordCount_strip]
      simp [wordCount, pySplit, pySplitAux]
  exact ⟨key, by omega⟩

theorem C10_fallback_preserves_words_witness :
    ("a b\n\nc d".data ≠ ([] : List Char)) ∧
    (separate "a b\n\nc d".data none = ⟨untitled, "a b".data, "c d".data⟩) ∧
    (wordCount "a b".data + wordCount "c d".data = wordCount "a b\n\nc d".data ∧
      ¬ (10 * (wordCount "a b".data + wordCount "c d".data) <
        9 * wordCount "a b\n\nc d".data)) :=
  ⟨by decide, by decide,
    C10_fallback_preserves_words "a b\n\nc d".data untitled "a b".data "c d".data
      (by decide) (by decide)⟩

end PromptSeparator
